import Mathlib

/-
  Verification of the linkable ring signature implementation
  (linkable_ring_signature.py) against its specification.

  The elliptic-curve group, the randomness source and the hash function are
  external collaborators of the code (the ecdsa and sha3 libraries).  They are
  modelled by parameters, exactly as the source itself parametrises its
  functions over the base point G and over hash_func:
    * the group of points is an arbitrary additive commutative monoid P,
      with scalar multiplication written with the smul dot; the facts the
      scheme needs from the curve (the group laws, order-times-G = 0, both
      coordinates smaller than 2 pow 256) are stated as hypotheses, all true
      of SECP256k1;
    * hash_func is an arbitrary function from byte strings to digests, a
      digest being a list of bytes; its hexdigest method is the hex
      rendering of those bytes and int of that hex string base 16 is the
      big-endian fold modelled below, matching the source H1;
    * the random values drawn by randrange are passed in as explicit
      arguments (u for the nonce, sr for the per-index blinding values), so
      theorems quantify over every possible draw.

  Python exceptions (IndexError from list indexing, TypeError from reducing
  an empty list, OverflowError from int.to_bytes) are modelled with Option:
  none is a raised exception.  Mutable arrays written at in-range positions
  are modelled as index functions; where out-of-range Python list semantics
  matters (negative indices, IndexError) a second translation with explicit
  Python list indexing is given (ring_signature_py).
-/

set_option linter.unusedVariables false
set_option maxHeartbeats 1000000
set_option maxRecDepth 8000

namespace RingSig

/-- Byte strings: lists of natural numbers; every byte the encoder emits is
    smaller than 256. -/
abbrev Bytes := List Nat

/-- Python int.to_bytes(32, big): the 32-byte big-endian encoding, raising
    OverflowError (none) when the value does not fit in 32 bytes. -/
def to_bytes32 (k : Nat) : Option Bytes :=
  if k < 2 ^ 256 then some ((List.range 32).map fun j => k / 256 ^ (31 - j) % 256)
  else none

/-- UTF-8 encoding of one character, as produced by Python str.encode. -/
def utf8Char (c : Char) : Bytes :=
  let n := c.toNat
  if n < 128 then [n]
  else if n < 2048 then [192 + n / 64, 128 + n % 64]
  else if n < 65536 then [224 + n / 4096, 128 + n / 64 % 64, 128 + n % 64]
  else [240 + n / 262144, 128 + n / 4096 % 64, 128 + n / 64 % 64, 128 + n % 64]

/-- UTF-8 encoding of a text value (Python str.encode with default utf-8). -/
def utf8Bytes (s : String) : Bytes := (s.data.map utf8Char).flatten

/-- The values the encoder concat accepts: int, str, curve point, or a
    nested list of such values. -/
inductive Param (P : Type) where
  | int : Nat → Param P
  | str : String → Param P
  | point : P → Param P
  | list : List (Param P) → Param P

/-- functools.reduce of the + operation: raises TypeError (none) on an empty
    list, otherwise folds the tail onto the head. -/
def reduce_cat : List Bytes → Option Bytes
  | [] => none
  | b :: bs => some (bs.foldl (fun x z => x ++ z) b)

mutual

/-- One branch of the dispatch inside the loop of concat: the bytes an
    element of the parameter list contributes.  xc and yc are the x() and
    y() coordinate accessors of the external point type. -/
def concatElem {P : Type} (xc yc : P → Nat) : Param P → Option Bytes
  | Param.int k => to_bytes32 k
  | Param.list ps => Option.bind (elemBytes xc yc ps) reduce_cat
  | Param.point p => Option.bind (to_bytes32 (xc p)) fun bx =>
      Option.map (fun yb => bx ++ yb) (to_bytes32 (yc p))
  | Param.str s => some (utf8Bytes s)

/-- The bytes_value array that concat builds, one entry per parameter. -/
def elemBytes {P : Type} (xc yc : P → Nat) : List (Param P) → Option (List Bytes)
  | [] => some []
  | p :: ps => Option.bind (concatElem xc yc p) fun b =>
      Option.map (fun bs => b :: bs) (elemBytes xc yc ps)

end

/-- concat from the source: build the per-element encodings, then reduce
    them with +. -/
def concat {P : Type} (xc yc : P → Nat) (params : List (Param P)) : Option Bytes :=
  Option.bind (elemBytes xc yc params) reduce_cat

/-- A digest: the bytes held by the hash object the external hash function
    returns. -/
abbrev Digest := List (Fin 256)

/-- hexdigest of a digest: the hexadecimal rendering of its bytes, high
    nibble first, kept here as the list of hex digit values. -/
def hexdigest (ds : Digest) : List Nat :=
  (ds.map fun b => [b.val / 16, b.val % 16]).flatten

/-- int with base 16 of a hex digit string (after the 0x marker). -/
def int_of_hex (hs : List Nat) : Nat := hs.foldl (fun a d => 16 * a + d) 0

/-- H1 from the source: the integer value of the hexdigest of the hash of
    the concatenation of the message parts. -/
def H1 {P : Type} (xc yc : P → Nat) (hashFn : Bytes → Digest)
    (msg : List (Param P)) : Option Nat :=
  Option.map (fun bs => int_of_hex (hexdigest (hashFn bs))) (concat xc yc msg)

/-- map_to_curve from the source: scalar multiplication of the base point. -/
def map_to_curve {P : Type} [AddCommMonoid P] (G : P) (x : Nat) : P := x • G

/-- H2 from the source: map_to_curve of H1. -/
def H2 {P : Type} [AddCommMonoid P] (xc yc : P → Nat) (G : P)
    (hashFn : Bytes → Digest) (msg : List (Param P)) : Option P :=
  Option.map (map_to_curve G) (H1 xc yc hashFn msg)

/-- The argument list of every H1 call made while signing or verifying:
    the key ring, the linkage tag, the message and the two commitments. -/
def ringParams {P : Type} (y : List P) (Y : P) (M : String) (z1 z2 : P) :
    List (Param P) :=
  [Param.list (y.map Param.point), Param.point Y, Param.str M,
   Param.point z1, Param.point z2]

/-- The index order of the signing loop in the source:
    range(key_idx + 1, n) followed by range(key_idx). -/
def visitList (key_idx n : Nat) : List Nat :=
  List.range' (key_idx + 1) (n - (key_idx + 1)) ++ List.range key_idx

/-- STEP 3 of ring_signature.  The arrays c and s are modelled as index
    functions (every write of this loop is at an index below n when
    0 <= key_idx < n).  Each iteration stores the blinding value s i, forms
    the two commitments and writes the next challenge at (i+1) mod n. -/
def signLoop {P : Type} [AddCommMonoid P] (xc yc : P → Nat) (G : P)
    (hashFn : Bytes → Digest) (y : List P) (H Y : P) (M : String)
    (n : Nat) (sr : Nat → Nat) :
    List Nat → (Nat → Nat) → (Nat → Nat) → Option ((Nat → Nat) × (Nat → Nat))
  | [], c, s => some (c, s)
  | i :: rest, c, s =>
    let si := sr i
    let z1 := si • G + c i • y.getD i 0
    let z2 := si • H + c i • Y
    Option.bind (H1 xc yc hashFn (ringParams y Y M z1 z2)) fun ci1 =>
      signLoop xc yc G hashFn y H Y M n sr rest
        (fun j => if j = (i + 1) % n then ci1 else c j)
        (fun j => if j = i then si else s j)

/-- ring_signature from the source.  The random draws are the arguments u
    (the nonce of STEP 2) and sr (the value randrange returns for index i in
    STEP 3).  The returned s list is the materialisation of the s array. -/
def ring_signature {P : Type} [AddCommMonoid P] (xc yc : P → Nat)
    (order : Nat) (G : P) (hashFn : Bytes → Digest)
    (siging_key key_idx : Nat) (M : String) (y : List P)
    (u : Nat) (sr : Nat → Nat) : Option (Nat × List Nat × P) :=
  let n := y.length
  Option.bind (H2 xc yc G hashFn (y.map Param.point)) fun H =>
  let Y := siging_key • H
  Option.bind (H1 xc yc hashFn (ringParams y Y M (u • G) (u • H))) fun seed =>
  let c0 : Nat → Nat := fun j => if j = (key_idx + 1) % n then seed else 0
  Option.bind (signLoop xc yc G hashFn y H Y M n sr (visitList key_idx n) c0 (fun _ => 0))
    fun cs =>
  let s : Nat → Nat := fun j =>
    if j = key_idx then (((u : Int) - siging_key * cs.1 key_idx) % (order : Int)).toNat
    else cs.2 j
  some (cs.1 0, (List.range n).map s, Y)

/-- The loop for i in range(n) of verify_ring_signature, iterating over the
    index list.  s is indexed with getElem? so that an out-of-range read is
    the IndexError (none) Python raises; the c array is an index function
    (all writes are at i + 1 <= n - 1).  The final some false is the
    return False after the loop. -/
def verifyLoop {P : Type} [AddCommMonoid P] (xc yc : P → Nat) (G : P)
    (hashFn : Bytes → Digest) (M : String) (y : List P) (H Y : P)
    (c_0 : Nat) (s : List Nat) (n : Nat) :
    List Nat → (Nat → Nat) → Option Bool
  | [], _ => some false
  | i :: rest, c =>
    Option.bind s[i]? fun si =>
    let z1 := si • G + c i • y.getD i 0
    let z2 := si • H + c i • Y
    if i < n - 1 then
      Option.bind (H1 xc yc hashFn (ringParams y Y M z1 z2)) fun h1 =>
        verifyLoop xc yc G hashFn M y H Y c_0 s n rest
          (fun j => if j = i + 1 then h1 else c j)
    else
      Option.map (fun h1 => decide (c_0 = h1)) (H1 xc yc hashFn (ringParams y Y M z1 z2))

/-- verify_ring_signature from the source: rebuild H, seed c with c_0 and
    recompute the challenge chain, comparing the last value against c_0. -/
def verify_ring_signature {P : Type} [AddCommMonoid P] (xc yc : P → Nat)
    (G : P) (hashFn : Bytes → Digest) (message : String) (y : List P)
    (c_0 : Nat) (s : List Nat) (Y : P) : Option Bool :=
  let n := y.length
  Option.bind (H2 xc yc G hashFn (y.map Param.point)) fun H =>
  verifyLoop xc yc G hashFn message y H Y c_0 s n (List.range n)
    (fun j => if j = 0 then c_0 else 0)

/-! Spec-side rendering of the signing algorithm, for the claim that the
    code follows it.  Section 4.3 of the specification words the loop as
    visiting the indices starting at (keyIdx+1) mod n, forward cyclically,
    all indices except keyIdx in increasing order with wraparound. -/

/-- Modelled from the spec: the cyclic visiting order of section 4.3,
    the j-th visited index being (keyIdx + 1 + j) mod n. -/
def specVisit (key_idx n : Nat) : List Nat :=
  (List.range (n - 1)).map fun j => (key_idx + 1 + j) % n

/-- Modelled from the spec: step 3 of section 4.3, one iteration per
    visited index, drawing s i, forming z1 and z2 and chaining the next
    challenge at (i+1) mod n. -/
def specLoop {P : Type} [AddCommMonoid P] (xc yc : P → Nat) (G : P)
    (hashFn : Bytes → Digest) (y : List P) (H Y : P) (M : String)
    (n : Nat) (sr : Nat → Nat) :
    List Nat → (Nat → Nat) → (Nat → Nat) → Option ((Nat → Nat) × (Nat → Nat))
  | [], c, s => some (c, s)
  | i :: rest, c, s =>
    let si := sr i
    let z1 := si • G + c i • y.getD i 0
    let z2 := si • H + c i • Y
    Option.bind (H1 xc yc hashFn (ringParams y Y M z1 z2)) fun ci1 =>
      specLoop xc yc G hashFn y H Y M n sr rest
        (fun j => if j = (i + 1) % n then ci1 else c j)
        (fun j => if j = i then si else s j)

/-- Modelled from the spec: the signing algorithm exactly as section 4.3
    states it (steps 1 to 5), with the cyclic visiting order specVisit. -/
def ring_signature_spec {P : Type} [AddCommMonoid P] (xc yc : P → Nat)
    (order : Nat) (G : P) (hashFn : Bytes → Digest)
    (siging_key key_idx : Nat) (M : String) (y : List P)
    (u : Nat) (sr : Nat → Nat) : Option (Nat × List Nat × P) :=
  let n := y.length
  Option.bind (H2 xc yc G hashFn (y.map Param.point)) fun H =>
  let Y := siging_key • H
  Option.bind (H1 xc yc hashFn (ringParams y Y M (u • G) (u • H))) fun seed =>
  let c0 : Nat → Nat := fun j => if j = (key_idx + 1) % n then seed else 0
  Option.bind (specLoop xc yc G hashFn y H Y M n sr (specVisit key_idx n) c0 (fun _ => 0))
    fun cs =>
  let s : Nat → Nat := fun j =>
    if j = key_idx then (((u : Int) - siging_key * cs.1 key_idx) % (order : Int)).toNat
    else cs.2 j
  some (cs.1 0, (List.range n).map s, Y)

/-! A second translation of ring_signature with explicit Python list
    semantics, used for the malformed-input claims: list indices are Python
    ints (negative values address from the end), every read or write through
    an index out of the range -n..n-1 is an IndexError (none). -/

/-- Python list index resolution for a list of length n: an index i is
    taken as is when 0 <= i < n, as i + n when -n <= i < 0, and raises
    IndexError otherwise. -/
def pyIdx (n : Nat) (i : Int) : Option Nat :=
  if 0 ≤ i ∧ i < (n : Int) then some i.toNat
  else if -(n : Int) ≤ i ∧ i < 0 then some (i + (n : Int)).toNat
  else none

/-- Python read l[i] on a list of naturals. -/
def pyGetN (l : List Nat) (i : Int) : Option Nat :=
  Option.map (fun j => l.getD j 0) (pyIdx l.length i)

/-- Python read l[i] on the list of public keys. -/
def pyGetP {P : Type} [AddCommMonoid P] (l : List P) (i : Int) : Option P :=
  Option.map (fun j => l.getD j 0) (pyIdx l.length i)

/-- Python write l[i] = v on a list of naturals. -/
def pySet (l : List Nat) (i : Int) (v : Nat) : Option (List Nat) :=
  Option.map (fun j => l.set j v) (pyIdx l.length i)

/-- Python range(a, b) over ints. -/
def pyRange (a b : Int) : List Int :=
  if a < b then (List.range (b - a).toNat).map (fun (j : Nat) => a + (j : Int)) else []

/-- STEP 3 of ring_signature with Python list semantics: the c and s arrays
    are lists, every access goes through pyIdx. -/
def signLoopPy {P : Type} [AddCommMonoid P] (xc yc : P → Nat) (G : P)
    (hashFn : Bytes → Digest) (y : List P) (H Y : P) (M : String)
    (n : Nat) (sr : Int → Nat) :
    List Int → List Nat → List Nat → Option (List Nat × List Nat)
  | [], c, s => some (c, s)
  | i :: rest, c, s =>
    let si := sr i
    Option.bind (pySet s i si) fun s' =>
    Option.bind (pyGetP y i) fun yi =>
    Option.bind (pyGetN c i) fun ci =>
    let z1 := si • G + ci • yi
    let z2 := si • H + ci • Y
    Option.bind (H1 xc yc hashFn (ringParams y Y M z1 z2)) fun ci1 =>
    Option.bind (pySet c ((i + 1) % (n : Int)) ci1) fun c' =>
    signLoopPy xc yc G hashFn y H Y M n sr rest c' s'

/-- ring_signature with Python list semantics throughout: key_idx is a
    Python int, c and s are lists of length n, and every indexing step that
    Python would raise on is a none. -/
def ring_signature_py {P : Type} [AddCommMonoid P] (xc yc : P → Nat)
    (order : Nat) (G : P) (hashFn : Bytes → Digest)
    (siging_key : Nat) (key_idx : Int) (M : String) (y : List P)
    (u : Nat) (sr : Int → Nat) : Option (Nat × List Nat × P) :=
  let n := y.length
  Option.bind (H2 xc yc G hashFn (y.map Param.point)) fun H =>
  let Y := siging_key • H
  Option.bind (H1 xc yc hashFn (ringParams y Y M (u • G) (u • H))) fun seed =>
  Option.bind (pySet (List.replicate n 0) ((key_idx + 1) % (n : Int)) seed) fun c =>
  Option.bind (signLoopPy xc yc G hashFn y H Y M n sr
      (pyRange (key_idx + 1) (n : Int) ++ pyRange 0 key_idx) c (List.replicate n 0))
    fun cs =>
  Option.bind (pyGetN cs.1 key_idx) fun cki =>
  Option.bind (pySet cs.2 key_idx (((u : Int) - siging_key * cki) % (order : Int)).toNat)
    fun s' =>
  Option.bind (pyGetN cs.1 0) fun c0 =>
  some (c0, s', Y)

/-! The pure layer used by the proofs: total value-level versions of the
    hash oracles and the two challenge chains (the one the signer builds and
    the one the verifier rebuilds). -/

/-- The value H1 computes when concat succeeds. -/
def H1v {P : Type} (xc yc : P → Nat) (hashFn : Bytes → Digest)
    (msg : List (Param P)) : Nat :=
  int_of_hex (hexdigest (hashFn ((concat xc yc msg).getD [])))

/-- The value H2 computes when concat succeeds. -/
def H2v {P : Type} [AddCommMonoid P] (xc yc : P → Nat) (G : P)
    (hashFn : Bytes → Digest) (y : List P) : P :=
  H1v xc yc hashFn (y.map Param.point) • G

/-- The signer challenge chain: chal 0 is the seeded challenge written at
    slot (key_idx + 1) mod n, and chal (j+1) is the challenge produced by
    the loop iteration at index (key_idx + 1 + j) mod n. -/
def chal {P : Type} [AddCommMonoid P] (xc yc : P → Nat) (G : P)
    (hashFn : Bytes → Digest) (y : List P) (H Y : P) (M : String)
    (u : Nat) (sr : Nat → Nat) (key_idx n : Nat) : Nat → Nat
  | 0 => H1v xc yc hashFn (ringParams y Y M (u • G) (u • H))
  | j + 1 =>
    let i := (key_idx + 1 + j) % n
    let cj := chal xc yc G hashFn y H Y M u sr key_idx n j
    H1v xc yc hashFn
      (ringParams y Y M (sr i • G + cj • y.getD i 0) (sr i • H + cj • Y))

/-- The verifier challenge chain: vchal 0 = c_0 and vchal (i+1) is the
    challenge the verifier computes at position i. -/
def vchal {P : Type} [AddCommMonoid P] (xc yc : P → Nat) (G : P)
    (hashFn : Bytes → Digest) (M : String) (y : List P) (H Y : P)
    (c_0 : Nat) (s : List Nat) : Nat → Nat
  | 0 => c_0
  | i + 1 =>
    let ci := vchal xc yc G hashFn M y H Y c_0 s i
    H1v xc yc hashFn
      (ringParams y Y M (s.getD i 0 • G + ci • y.getD i 0) (s.getD i 0 • H + ci • Y))

/-- Big-endian base-256 value of a byte string. -/
def natBE (bs : Bytes) : Nat := bs.foldl (fun a b => 256 * a + b) 0

/-- Big-endian base-256 value of a digest. -/
def bytesBE (ds : Digest) : Nat := ds.foldl (fun a b => 256 * a + b.val) 0

/-! A small concrete instantiation of the external collaborators, used for
    the witnesses: points form the additive group of integers mod 5, the
    generator is 1 (its order is 5), the x coordinate is the residue and the
    y coordinate 0, and the hash digests a byte string to the single byte
    holding its length mod 256. -/

/-- Toy point group for witnesses. -/
abbrev TP := ZMod 5

/-- Toy x coordinate accessor. -/
def txc : TP → Nat := ZMod.val

/-- Toy y coordinate accessor. -/
def tyc : TP → Nat := fun _ => 0

/-- Toy base point. -/
def tG : TP := 1

/-- Toy group order. -/
def tOrder : Nat := 5

/-- Toy hash function: digest is one byte, the input length mod 256. -/
def tHash : Bytes → Digest := fun bs => [⟨bs.length % 256, Nat.mod_lt _ (by decide)⟩]

/-- A hash function whose digest is 32 bytes of 255, giving the largest
    256-bit digest value. -/
def ffHash : Bytes → Digest := fun _ => List.replicate 32 ⟨255, by decide⟩

/-- The scalar order of SECP256k1, the curve the source uses by default. -/
def secp256k1_order : Nat :=
  115792089237316195423570985008687907852837564279074904382605163141518161494337

/-! Lemmas about the byte-level encoders. -/

theorem foldl_append_eq_flatten (bs : List Bytes) (b : Bytes) :
    bs.foldl (fun x z => x ++ z) b = b ++ bs.flatten := by
  induction bs generalizing b with
  | nil => simp
  | cons h t ih => simp [ih, List.append_assoc]

theorem reduce_cat_cons (b : Bytes) (bs : List Bytes) :
    reduce_cat (b :: bs) = some (b ++ bs.flatten) := by
  simp [reduce_cat, foldl_append_eq_flatten]

theorem hex_fold (ds : Digest) (a : Nat) :
    ((ds.map fun b => [b.val / 16, b.val % 16]).flatten).foldl
        (fun x d => 16 * x + d) a = ds.foldl (fun x b => 256 * x + b.val) a := by
  induction ds generalizing a with
  | nil => simp
  | cons b t ih =>
    simp only [List.map_cons, List.flatten_cons, List.foldl_append, List.foldl_cons,
      List.foldl_nil, List.cons_append, List.nil_append]
    rw [ih]
    congr 1
    omega

/-- int of the hexdigest of a digest is its big-endian byte value. -/
theorem int_of_hex_hexdigest (ds : Digest) :
    int_of_hex (hexdigest ds) = bytesBE ds :=
  hex_fold ds 0

theorem foldl_base256_range (w : Nat) : ∀ (k a : Nat),
    ((List.range w).map fun j => k / 256 ^ (w - 1 - j) % 256).foldl
        (fun x b => 256 * x + b) a = a * 256 ^ w + k % 256 ^ w := by
  induction w with
  | zero => intro k a; simp [Nat.mod_one]
  | succ w ih =>
    intro k a
    rw [List.range_succ_eq_map]
    simp only [List.map_cons, List.map_map, List.foldl_cons]
    have hcomp : ((fun j => k / 256 ^ (w + 1 - 1 - j) % 256) ∘ (· + 1)) =
        fun j => k / 256 ^ (w - 1 - j) % 256 := by
      funext j
      have he : w + 1 - 1 - (j + 1) = w - 1 - j := by omega
      simp only [Function.comp]
      rw [he]
    have h0 : w + 1 - 1 - 0 = w := by omega
    rw [hcomp, ih k]
    have h256 : (256 : Nat) ^ (w + 1) = 256 ^ w * 256 := by ring
    rw [h0, h256, Nat.mod_mul]
    ring

/-- The bytes to_bytes32 produces: 32 of them, each below 256, with k as
    their big-endian value. -/
theorem natBE_to_bytes32 (k : Nat) (bs : Bytes) (h : to_bytes32 k = some bs) :
    bs.length = 32 ∧ natBE bs = k ∧ ∀ b ∈ bs, b < 256 := by
  unfold to_bytes32 at h
  split at h
  · rename_i hk
    cases h
    refine ⟨by simp, ?_, ?_⟩
    · have hfold := foldl_base256_range 32 k 0
      have harg : (fun j => k / 256 ^ (32 - 1 - j) % 256) =
          fun j => k / 256 ^ (31 - j) % 256 := by norm_num
      have hle : (2 : Nat) ^ 256 ≤ 256 ^ 32 := by norm_num
      have hlt : k % 256 ^ 32 = k :=
        Nat.mod_eq_of_lt (Nat.lt_of_lt_of_le hk hle)
      rw [harg] at hfold
      calc natBE ((List.range 32).map fun j => k / 256 ^ (31 - j) % 256)
          = 0 * 256 ^ 32 + k % 256 ^ 32 := hfold
        _ = k := by rw [Nat.zero_mul, Nat.zero_add, hlt]
    · intro b hb
      simp only [List.mem_map] at hb
      obtain ⟨j, _, rfl⟩ := hb
      exact Nat.mod_lt _ (by norm_num)
  · cases h

theorem to_bytes32_isSome (k : Nat) (hk : k < 2 ^ 256) :
    ∃ bs, to_bytes32 k = some bs :=
  ⟨(List.range 32).map fun j => k / 256 ^ (31 - j) % 256, by rw [to_bytes32, if_pos hk]⟩

/-! Success of concat on the inputs signing and verifying feed it. -/

theorem concatElem_list_eq_concat {P : Type} (xc yc : P → Nat) (ps : List (Param P)) :
    concatElem xc yc (Param.list ps) = concat xc yc ps := rfl

theorem concatElem_point_isSome {P : Type} (xc yc : P → Nat) (p : P)
    (hx : xc p < 2 ^ 256) (hy : yc p < 2 ^ 256) :
    ∃ bs, concatElem xc yc (Param.point p) = some bs := by
  obtain ⟨bx, hbx⟩ := to_bytes32_isSome _ hx
  obtain ⟨yb, hyb⟩ := to_bytes32_isSome _ hy
  exact ⟨bx ++ yb, by simp [concatElem, hbx, hyb]⟩

theorem elemBytes_map_point {P : Type} (xc yc : P → Nat)
    (hco : ∀ p : P, xc p < 2 ^ 256 ∧ yc p < 2 ^ 256) (y : List P) :
    ∃ ls, elemBytes xc yc (y.map Param.point) = some ls ∧ ls.length = y.length := by
  induction y with
  | nil => exact ⟨[], rfl, rfl⟩
  | cons p t ih =>
    obtain ⟨ls, hls, hlen⟩ := ih
    obtain ⟨b, hb⟩ := concatElem_point_isSome xc yc p (hco p).1 (hco p).2
    exact ⟨b :: ls, by simp [elemBytes, hb, hls], by simp [hlen]⟩

theorem concat_map_point_isSome {P : Type} (xc yc : P → Nat)
    (hco : ∀ p : P, xc p < 2 ^ 256 ∧ yc p < 2 ^ 256) (y : List P) (hy : y ≠ []) :
    ∃ bs, concat xc yc (y.map Param.point) = some bs := by
  obtain ⟨ls, hls, hlen⟩ := elemBytes_map_point xc yc hco y
  cases ls with
  | nil =>
    exfalso
    apply hy
    cases y with
    | nil => rfl
    | cons a t => simp at hlen
  | cons b t =>
    exact ⟨b ++ t.flatten, by simp [concat, hls, reduce_cat_cons]⟩

theorem concat_ringParams_isSome {P : Type} (xc yc : P → Nat)
    (hco : ∀ p : P, xc p < 2 ^ 256 ∧ yc p < 2 ^ 256) (y : List P) (hy : y ≠ [])
    (Y : P) (M : String) (z1 z2 : P) :
    ∃ bs, concat xc yc (ringParams y Y M z1 z2) = some bs := by
  obtain ⟨bsy, hbsy⟩ := concat_map_point_isSome xc yc hco y hy
  obtain ⟨bY, hbY⟩ := concatElem_point_isSome xc yc Y (hco Y).1 (hco Y).2
  obtain ⟨b1, hb1⟩ := concatElem_point_isSome xc yc z1 (hco z1).1 (hco z1).2
  obtain ⟨b2, hb2⟩ := concatElem_point_isSome xc yc z2 (hco z2).1 (hco z2).2
  have h5 : concatElem xc yc (Param.list (y.map Param.point)) = some bsy := by
    rw [concatElem_list_eq_concat]
    exact hbsy
  have hstr : concatElem xc yc (Param.str M) = some (utf8Bytes M) := rfl
  have hE : elemBytes xc yc (ringParams y Y M z1 z2) =
      some [bsy, bY, utf8Bytes M, b1, b2] := by
    simp only [ringParams, elemBytes, h5, hbY, hb1, hb2, hstr, Option.bind_some,
      Option.map_some, Option.some_bind, Option.map_some']
  refine ⟨bsy ++ [bY, utf8Bytes M, b1, b2].flatten, ?_⟩
  simp only [concat, hE, Option.some_bind]
  exact reduce_cat_cons _ _

/-! When concat succeeds the hash oracles return their pure values. -/

theorem H1_eq_H1v {P : Type} (xc yc : P → Nat) (hashFn : Bytes → Digest)
    (msg : List (Param P)) (bs : Bytes) (h : concat xc yc msg = some bs) :
    H1 xc yc hashFn msg = some (H1v xc yc hashFn msg) := by
  simp [H1, H1v, h]

theorem H2_eq_H2v {P : Type} [AddCommMonoid P] (xc yc : P → Nat) (G : P)
    (hashFn : Bytes → Digest) (y : List P) (bs : Bytes)
    (h : concat xc yc (y.map Param.point) = some bs) :
    H2 xc yc G hashFn (y.map Param.point) = some (H2v xc yc G hashFn y) := by
  simp [H2, H1_eq_H1v xc yc hashFn _ bs h, H2v, map_to_curve]

theorem H1_ringParams_eq {P : Type} (xc yc : P → Nat) (hashFn : Bytes → Digest)
    (hco : ∀ p : P, xc p < 2 ^ 256 ∧ yc p < 2 ^ 256) (y : List P) (hy : y ≠ [])
    (Y : P) (M : String) (z1 z2 : P) :
    H1 xc yc hashFn (ringParams y Y M z1 z2) =
      some (H1v xc yc hashFn (ringParams y Y M z1 z2)) := by
  obtain ⟨bs, hbs⟩ := concat_ringParams_isSome xc yc hco y hy Y M z1 z2
  exact H1_eq_H1v xc yc hashFn _ bs hbs

/-! Modular arithmetic on indices and on scalar multiples. -/

theorem mod_of_lt_two_mul (a n : Nat) (h1 : a < 2 * n) :
    a % n = if a < n then a else a - n := by
  split
  · rename_i h2
    exact Nat.mod_eq_of_lt h2
  · rename_i h2
    push_neg at h2
    rw [Nat.mod_eq_sub_mod h2, Nat.mod_eq_of_lt (by omega)]

/-- The slot written at chain step t is (key_idx + 1 + t) mod n; the map
    from slots to chain steps is its inverse. -/
theorem slot_idx_iff (k n slot t : Nat) (hk : k < n) (hs : slot < n) (ht : t < n) :
    (slot + (n - 1) - k) % n = t ↔ slot = (k + 1 + t) % n := by
  have e1 : (slot + (n - 1) - k) % n =
      if slot + (n - 1) - k < n then slot + (n - 1) - k else slot + (n - 1) - k - n :=
    mod_of_lt_two_mul _ _ (by omega)
  have e2 : (k + 1 + t) % n = if k + 1 + t < n then k + 1 + t else k + 1 + t - n :=
    mod_of_lt_two_mul _ _ (by omega)
  rw [e1, e2]
  split <;> split <;> omega

/-- Scalar multiplication of a point killed by the group order only
    depends on the scalar mod the order. -/
theorem nsmul_mod {P : Type} [AddCommMonoid P] (A : P) (m : Nat)
    (hm : m • A = 0) (a : Nat) : (a % m) • A = a • A := by
  have hz : (m * (a / m)) • A = 0 := by
    rw [mul_nsmul, hm, smul_zero]
  calc (a % m) • A = 0 + (a % m) • A := (zero_add _).symm
    _ = (m * (a / m)) • A + (a % m) • A := by rw [hz]
    _ = (m * (a / m) + a % m) • A := (add_nsmul A _ _).symm
    _ = a • A := by rw [Nat.div_add_mod]

/-- The Schnorr-style closure: the commitment the verifier recomputes at
    the signer's index from s[key_idx] equals the one the signer seeded
    with the nonce u. -/
theorem closure_smul {P : Type} [AddCommMonoid P] (A : P) (m u sk c : Nat)
    (hm : 0 < m) (hA : m • A = 0) :
    (((u : Int) - (sk : Int) * (c : Int)) % (m : Int)).toNat • A + c • (sk • A) =
      u • A := by
  set r : Int := ((u : Int) - (sk : Int) * (c : Int)) % (m : Int) with hr
  have hm' : (m : Int) ≠ 0 := by exact_mod_cast hm.ne'
  have hr0 : 0 ≤ r := Int.emod_nonneg _ hm'
  have key : (r.toNat + c * sk) % m = u % m := by
    have hcast : ((r.toNat + c * sk : Nat) : Int) % (m : Int) =
        ((u : Nat) : Int) % (m : Int) := by
      push_cast [Int.toNat_of_nonneg hr0]
      rw [hr, Int.emod_add_emod]
      congr 1
      ring
    have h2 : ((((r.toNat + c * sk) % m : Nat)) : Int) = (((u % m : Nat)) : Int) := by
      rw [Int.natCast_mod, Int.natCast_mod, hcast]
    exact_mod_cast h2
  calc r.toNat • A + c • (sk • A)
      = r.toNat • A + (c * sk) • A := by rw [mul_comm, mul_nsmul]
    _ = (r.toNat + c * sk) • A := (add_nsmul A _ _).symm
    _ = ((r.toNat + c * sk) % m) • A := (nsmul_mod A m hA _).symm
    _ = (u % m) • A := by rw [key]
    _ = u • A := nsmul_mod A m hA u

/-- The order also kills every scalar multiple of the base point, in
    particular the point H2 returns and the linkage tag. -/
theorem nsmul_order_smul {P : Type} [AddCommMonoid P] (G : P) (m h : Nat)
    (hG : m • G = 0) : m • (h • G) = 0 := by
  rw [← mul_nsmul, mul_comm, mul_nsmul, hG, smul_zero]

/-! The index order of the source loop is the cyclic walk of the spec. -/

theorem visitList_eq (k n : Nat) (hk : k < n) :
    visitList k n = (List.range (n - 1)).map fun j => (k + 1 + j) % n := by
  have hsplit : n - 1 = (n - 1 - k) + k := by omega
  rw [visitList, hsplit, List.range_add, List.map_append]
  congr 1
  · rw [List.range'_eq_map_range]
    have hn : n - (k + 1) = n - 1 - k := by omega
    rw [hn]
    apply List.map_congr_left
    intro j hj
    rw [List.mem_range] at hj
    rw [Nat.mod_eq_of_lt (by omega)]
  · rw [List.map_map]
    symm
    have hid : ∀ t ∈ List.range k,
        ((fun j => (k + 1 + j) % n) ∘ ((n - 1 - k) + ·)) t = id t := by
      intro t ht
      rw [List.mem_range] at ht
      simp only [Function.comp, id]
      have he : k + 1 + (n - 1 - k + t) = n + t := by omega
      rw [he, Nat.add_mod_left, Nat.mod_eq_of_lt (by omega)]
    rw [List.map_congr_left hid, List.map_id]

theorem specLoop_eq_signLoop {P : Type} [AddCommMonoid P] (xc yc : P → Nat)
    (G : P) (hashFn : Bytes → Digest) (y : List P) (H Y : P) (M : String)
    (n : Nat) (sr : Nat → Nat) :
    ∀ (l : List Nat) (c s : Nat → Nat),
      specLoop xc yc G hashFn y H Y M n sr l c s =
        signLoop xc yc G hashFn y H Y M n sr l c s := by
  intro l
  induction l with
  | nil => intro c s; rfl
  | cons i rest ih =>
    intro c s
    cases hH : H1 xc yc hashFn
        (ringParams y Y M (sr i • G + c i • y.getD i 0) (sr i • H + c i • Y)) with
    | none =>
      simp only [specLoop, signLoop]
      rw [hH]
      simp only [Option.none_bind]
    | some v =>
      simp only [specLoop, signLoop]
      rw [hH]
      simp only [Option.some_bind]
      exact ih _ _

/-! Characterisation of the signing loop: after processing the whole visit
    order, slot i of the c array holds the chain value whose step index is
    the cyclic distance from the seeded slot, and the s array holds the
    drawn blinding values at every index except the signer's. -/

theorem signLoop_char {P : Type} [AddCommMonoid P] (xc yc : P → Nat) (G : P)
    (hashFn : Bytes → Digest)
    (hco : ∀ p : P, xc p < 2 ^ 256 ∧ yc p < 2 ^ 256)
    (y : List P) (H Y : P) (M : String) (u : Nat) (sr : Nat → Nat) (k : Nat)
    (hy : y ≠ []) (hk : k < y.length) :
    ∀ (d : Nat), ∀ (t : Nat) (c s : Nat → Nat),
      t + d = y.length - 1 →
      (∀ slot, slot < y.length →
        c slot = if (slot + (y.length - 1) - k) % y.length ≤ t
          then chal xc yc G hashFn y H Y M u sr k y.length
            ((slot + (y.length - 1) - k) % y.length)
          else 0) →
      (∀ i, i < y.length →
        s i = if (i + (y.length - 1) - k) % y.length < t then sr i else 0) →
      ∃ cF sF,
        signLoop xc yc G hashFn y H Y M y.length sr
            ((List.range d).map fun j => (k + 1 + t + j) % y.length) c s =
          some (cF, sF) ∧
        (∀ slot, slot < y.length →
          cF slot = chal xc yc G hashFn y H Y M u sr k y.length
            ((slot + (y.length - 1) - k) % y.length)) ∧
        (∀ i, i < y.length → i ≠ k → sF i = sr i) := by
  have hn : 0 < y.length := List.length_pos.mpr hy
  intro d
  induction d with
  | zero =>
    intro t c s ht hc hs
    refine ⟨c, s, rfl, ?_, ?_⟩
    · intro slot hslot
      have hlt : (slot + (y.length - 1) - k) % y.length < y.length :=
        Nat.mod_lt _ hn
      rw [hc slot hslot, if_pos (by omega)]
    · intro i hi hik
      have hlt : (i + (y.length - 1) - k) % y.length < y.length :=
        Nat.mod_lt _ hn
      have hne : (i + (y.length - 1) - k) % y.length ≠ y.length - 1 := by
        intro he
        apply hik
        have := (slot_idx_iff k y.length i (y.length - 1) hk hi (by omega)).mp he
        rw [this]
        have harr : k + 1 + (y.length - 1) = y.length + k := by omega
        rw [harr, Nat.add_mod_left, Nat.mod_eq_of_lt hk]
      rw [hs i hi, if_pos (by omega)]
  | succ d ih =>
    intro t c s ht hc hs
    have htn : t < y.length - 1 := by omega
    -- split the visit list into its head and tail
    have hlist : ((List.range (d + 1)).map fun j => (k + 1 + t + j) % y.length) =
        ((k + 1 + t) % y.length) ::
          ((List.range d).map fun j => (k + 1 + (t + 1) + j) % y.length) := by
      rw [List.range_succ_eq_map, List.map_cons, List.map_map]
      congr 1
      apply List.map_congr_left
      intro j hj
      simp only [Function.comp]
      congr 1
      omega
    set i0 := (k + 1 + t) % y.length with hi0
    have hi0lt : i0 < y.length := Nat.mod_lt _ hn
    have hidx0 : (i0 + (y.length - 1) - k) % y.length = t :=
      (slot_idx_iff k y.length i0 t hk hi0lt (by omega)).mpr hi0
    have hci0 : c i0 = chal xc yc G hashFn y H Y M u sr k y.length t := by
      rw [hc i0 hi0lt, hidx0, if_pos (Nat.le_refl t)]
    rw [hlist]
    simp only [signLoop]
    rw [hci0]
    rw [H1_ringParams_eq xc yc hashFn hco y hy Y M _ _]
    simp only [Option.some_bind]
    have hchalstep : H1v xc yc hashFn
        (ringParams y Y M
          (sr i0 • G + chal xc yc G hashFn y H Y M u sr k y.length t • y.getD i0 0)
          (sr i0 • H + chal xc yc G hashFn y H Y M u sr k y.length t • Y)) =
        chal xc yc G hashFn y H Y M u sr k y.length (t + 1) := by
      rw [chal]
    rw [hchalstep]
    apply ih (t + 1) _ _ (by omega)
    · -- the c invariant advances by one step
      intro slot hslot
      have hlt : (slot + (y.length - 1) - k) % y.length < y.length :=
        Nat.mod_lt _ hn
      by_cases hcase : slot = (i0 + 1) % y.length
      · have hslot2 : slot = (k + 1 + (t + 1)) % y.length := by
          rw [hcase, hi0, Nat.mod_add_mod, Nat.add_assoc (k + 1) t 1]
        have hidx : (slot + (y.length - 1) - k) % y.length = t + 1 :=
          (slot_idx_iff k y.length slot (t + 1) hk hslot (by omega)).mpr hslot2
        simp only [if_pos hcase]
        rw [hidx, if_pos (Nat.le_refl _)]
      · have hne : (slot + (y.length - 1) - k) % y.length ≠ t + 1 := by
          intro he
          apply hcase
          have := (slot_idx_iff k y.length slot (t + 1) hk hslot (by omega)).mp he
          rw [this, hi0, Nat.mod_add_mod, Nat.add_assoc (k + 1) t 1]
        simp only [if_neg hcase]
        rw [hc slot hslot]
        by_cases hle : (slot + (y.length - 1) - k) % y.length ≤ t
        · rw [if_pos hle, if_pos (by omega)]
        · rw [if_neg hle, if_neg (by omega)]
    · -- the s invariant advances by one step
      intro i hi
      by_cases hcase : i = i0
      · subst hcase
        simp only [eq_self_iff_true, if_true]
        rw [hidx0, if_pos (Nat.lt_succ_self t)]
      · have hne : (i + (y.length - 1) - k) % y.length ≠ t := by
          intro he
          exact hcase ((slot_idx_iff k y.length i t hk hi (by omega)).mp he)
        simp only [if_neg hcase]
        rw [hs i hi]
        by_cases hlt2 : (i + (y.length - 1) - k) % y.length < t
        · rw [if_pos hlt2, if_pos (by omega)]
        · rw [if_neg hlt2, if_neg (by omega)]

/-- Full characterisation of ring_signature for a valid key index: it
    always succeeds, c0 is the chain value whose step index is the cyclic
    distance from the seeded slot to slot 0, every s entry except the
    signer's is the drawn blinding value and the signer's entry is the
    closing value computed from the nonce, and Y is the linkage tag. -/
theorem ring_signature_char {P : Type} [AddCommMonoid P] (xc yc : P → Nat)
    (order : Nat) (G : P) (hashFn : Bytes → Digest)
    (hco : ∀ p : P, xc p < 2 ^ 256 ∧ yc p < 2 ^ 256)
    (sk k : Nat) (M : String) (y : List P) (u : Nat) (sr : Nat → Nat)
    (hk : k < y.length) :
    ring_signature xc yc order G hashFn sk k M y u sr =
      some (chal xc yc G hashFn y (H2v xc yc G hashFn y) (sk • H2v xc yc G hashFn y)
              M u sr k y.length (y.length - 1 - k),
            (List.range y.length).map (fun j =>
              if j = k then
                (((u : Int) - (sk : Int) *
                    (chal xc yc G hashFn y (H2v xc yc G hashFn y)
                      (sk • H2v xc yc G hashFn y) M u sr k y.length (y.length - 1) : Nat))
                  % (order : Int)).toNat
              else sr j),
            sk • H2v xc yc G hashFn y) := by
  have hy : y ≠ [] := by
    intro h
    rw [h] at hk
    simp at hk
  have hn : 0 < y.length := List.length_pos.mpr hy
  obtain ⟨bs, hbs⟩ := concat_map_point_isSome xc yc hco y hy
  set Hp := H2v xc yc G hashFn y with hHp
  set Yp := sk • Hp with hYp
  simp only [ring_signature]
  rw [H2_eq_H2v xc yc G hashFn y bs hbs]
  simp only [Option.some_bind]
  rw [H1_ringParams_eq xc yc hashFn hco y hy Yp M (u • G) (u • Hp)]
  simp only [Option.some_bind]
  rw [visitList_eq k y.length hk]
  have hc0 : ∀ slot, slot < y.length →
      (fun j => if j = (k + 1) % y.length
          then H1v xc yc hashFn (ringParams y Yp M (u • G) (u • Hp)) else 0) slot =
        if (slot + (y.length - 1) - k) % y.length ≤ 0
          then chal xc yc G hashFn y Hp Yp M u sr k y.length
            ((slot + (y.length - 1) - k) % y.length)
          else 0 := by
    intro slot hslot
    by_cases hcase : slot = (k + 1) % y.length
    · have hidx : (slot + (y.length - 1) - k) % y.length = 0 :=
        (slot_idx_iff k y.length slot 0 hk hslot hn).mpr (by rw [hcase])
      simp only [if_pos hcase]
      rw [hidx, if_pos (Nat.le_refl 0), chal]
    · have hne : (slot + (y.length - 1) - k) % y.length ≠ 0 := by
        intro he
        exact hcase ((slot_idx_iff k y.length slot 0 hk hslot hn).mp he)
      simp only [if_neg hcase]
      rw [if_neg (by omega)]
  have hs0 : ∀ i, i < y.length →
      (fun _ : Nat => 0) i =
        if (i + (y.length - 1) - k) % y.length < 0 then sr i else 0 := by
    intro i hi
    rw [if_neg (Nat.not_lt_zero _)]
  obtain ⟨cF, sF, hloop, hcF, hsF⟩ :=
    signLoop_char xc yc G hashFn hco y Hp Yp M u sr k hy hk (y.length - 1) 0
      _ _ (by omega) hc0 hs0
  simp only [Nat.add_zero] at hloop
  rw [hloop]
  simp only [Option.some_bind]
  have hc0v : cF 0 = chal xc yc G hashFn y Hp Yp M u sr k y.length (y.length - 1 - k) := by
    have hidx : (0 + (y.length - 1) - k) % y.length = y.length - 1 - k := by
      rw [Nat.zero_add]
      exact Nat.mod_eq_of_lt (by omega)
    rw [hcF 0 hn, hidx]
  have hckv : cF k = chal xc yc G hashFn y Hp Yp M u sr k y.length (y.length - 1) := by
    have hidx : (k + (y.length - 1) - k) % y.length = y.length - 1 := by
      have he : k + (y.length - 1) - k = y.length - 1 := by omega
      rw [he]
      exact Nat.mod_eq_of_lt (by omega)
    rw [hcF k hk, hidx]
  have hmap : ∀ j ∈ List.range y.length,
      (fun j => if j = k
          then (((u : Int) - (sk : Int) * (cF k : Nat)) % (order : Int)).toNat
          else sF j) j =
        (fun j => if j = k
          then (((u : Int) - (sk : Int) *
              (chal xc yc G hashFn y Hp Yp M u sr k y.length (y.length - 1) : Nat))
            % (order : Int)).toNat
          else sr j) j := by
    intro j hj
    rw [List.mem_range] at hj
    by_cases hcase : j = k
    · simp only [if_pos hcase, hckv]
    · simp only [if_neg hcase]
      exact hsF j hj hcase
  rw [hc0v, List.map_congr_left hmap]

/-! Characterisation of the verifying loop. -/

/-- One-step unfolding of the verifying loop, used to keep rewriting under
    control when the tail of the index list is itself reducible. -/
theorem verifyLoop_cons {P : Type} [AddCommMonoid P] (xc yc : P → Nat) (G : P)
    (hashFn : Bytes → Digest) (M : String) (y : List P) (H Y : P)
    (c_0 : Nat) (s : List Nat) (n : Nat) (i : Nat) (rest : List Nat)
    (c : Nat → Nat) :
    verifyLoop xc yc G hashFn M y H Y c_0 s n (i :: rest) c =
      Option.bind s[i]? fun si =>
        if i < n - 1 then
          Option.bind (H1 xc yc hashFn (ringParams y Y M
              (si • G + c i • y.getD i 0) (si • H + c i • Y))) fun h1 =>
            verifyLoop xc yc G hashFn M y H Y c_0 s n rest
              (fun j => if j = i + 1 then h1 else c j)
        else
          Option.map (fun h1 => decide (c_0 = h1)) (H1 xc yc hashFn (ringParams y Y M
            (si • G + c i • y.getD i 0) (si • H + c i • Y))) := rfl

theorem verifyLoop_char {P : Type} [AddCommMonoid P] (xc yc : P → Nat) (G : P)
    (hashFn : Bytes → Digest)
    (hco : ∀ p : P, xc p < 2 ^ 256 ∧ yc p < 2 ^ 256)
    (M : String) (y : List P) (H Y : P) (c_0 : Nat) (s : List Nat)
    (hy : y ≠ []) (hlen : y.length ≤ s.length) :
    ∀ (d : Nat), ∀ (i : Nat) (c : Nat → Nat),
      i + d + 1 = y.length →
      c i = vchal xc yc G hashFn M y H Y c_0 s i →
      verifyLoop xc yc G hashFn M y H Y c_0 s y.length (List.range' i (d + 1)) c =
        some (decide (c_0 = vchal xc yc G hashFn M y H Y c_0 s y.length)) := by
  intro d
  induction d with
  | zero =>
    intro i c hi hc
    have his : i < s.length := by omega
    rw [List.range'_one, verifyLoop_cons]
    rw [List.getElem?_eq_getElem his]
    simp only [Option.some_bind]
    rw [if_neg (show ¬ i < y.length - 1 by omega)]
    rw [H1_ringParams_eq xc yc hashFn hco y hy Y M _ _]
    simp only [Option.map_some']
    have hval : vchal xc yc G hashFn M y H Y c_0 s y.length =
        H1v xc yc hashFn (ringParams y Y M
          (s[i] • G + c i • y.getD i 0) (s[i] • H + c i • Y)) := by
      have hn : y.length = i + 1 := by omega
      rw [hn, vchal, hc]
      rw [List.getD_eq_getElem s 0 his]
    rw [hval]
  | succ d ih =>
    intro i c hi hc
    have his : i < s.length := by omega
    rw [List.range'_succ, verifyLoop_cons]
    rw [List.getElem?_eq_getElem his]
    simp only [Option.some_bind]
    rw [if_pos (show i < y.length - 1 by omega)]
    rw [H1_ringParams_eq xc yc hashFn hco y hy Y M _ _]
    simp only [Option.some_bind]
    have hstep : H1v xc yc hashFn (ringParams y Y M
        (s[i] • G + c i • y.getD i 0) (s[i] • H + c i • Y)) =
        vchal xc yc G hashFn M y H Y c_0 s (i + 1) := by
      rw [vchal, hc]
      rw [List.getD_eq_getElem s 0 his]
    rw [hstep]
    exact ih (i + 1) _ (by omega) (by rw [if_pos rfl])

theorem verifyLoop_short_none {P : Type} [AddCommMonoid P] (xc yc : P → Nat)
    (G : P) (hashFn : Bytes → Digest)
    (hco : ∀ p : P, xc p < 2 ^ 256 ∧ yc p < 2 ^ 256)
    (M : String) (y : List P) (H Y : P) (c_0 : Nat) (s : List Nat)
    (hy : y ≠ []) (hshort : s.length < y.length) :
    ∀ (d : Nat), ∀ (i : Nat) (c : Nat → Nat),
      i + d + 1 = y.length → i ≤ s.length →
      verifyLoop xc yc G hashFn M y H Y c_0 s y.length (List.range' i (d + 1)) c =
        none := by
  intro d
  induction d with
  | zero =>
    intro i c hi his
    have hieq : i = s.length := by omega
    rw [List.range'_one, verifyLoop_cons]
    rw [List.getElem?_eq_none (show s.length ≤ i by omega)]
    rfl
  | succ d ih =>
    intro i c hi his
    rw [List.range'_succ, verifyLoop_cons]
    by_cases hieq : i = s.length
    · rw [List.getElem?_eq_none (show s.length ≤ i by omega)]
      rfl
    · have hilt : i < s.length := by omega
      rw [List.getElem?_eq_getElem hilt]
      simp only [Option.some_bind]
      rw [if_pos (show i < y.length - 1 by omega)]
      rw [H1_ringParams_eq xc yc hashFn hco y hy Y M _ _]
      simp only [Option.some_bind]
      exact ih (i + 1) _ (by omega) (by omega)

/-- verify_ring_signature on a nonempty ring with enough s entries never
    raises and returns exactly the comparison of c_0 against the last
    recomputed challenge. -/
theorem verify_char {P : Type} [AddCommMonoid P] (xc yc : P → Nat) (G : P)
    (hashFn : Bytes → Digest)
    (hco : ∀ p : P, xc p < 2 ^ 256 ∧ yc p < 2 ^ 256)
    (M : String) (y : List P) (c_0 : Nat) (s : List Nat) (Y : P)
    (hy : y ≠ []) (hlen : y.length ≤ s.length) :
    verify_ring_signature xc yc G hashFn M y c_0 s Y =
      some (decide (c_0 = vchal xc yc G hashFn M y (H2v xc yc G hashFn y) Y c_0 s
        y.length)) := by
  have hn : 0 < y.length := List.length_pos.mpr hy
  obtain ⟨bs, hbs⟩ := concat_map_point_isSome xc yc hco y hy
  simp only [verify_ring_signature]
  rw [H2_eq_H2v xc yc G hashFn y bs hbs]
  simp only [Option.some_bind]
  have hlist : List.range y.length = List.range' 0 (y.length - 1 + 1) := by
    rw [List.range_eq_range']
    congr 1
    omega
  rw [hlist]
  exact verifyLoop_char xc yc G hashFn hco M y (H2v xc yc G hashFn y) Y c_0 s hy hlen
    (y.length - 1) 0 _ (by omega) rfl

/-- verify_ring_signature with fewer s entries than keys raises the
    IndexError at position length of s. -/
theorem verify_short {P : Type} [AddCommMonoid P] (xc yc : P → Nat) (G : P)
    (hashFn : Bytes → Digest)
    (hco : ∀ p : P, xc p < 2 ^ 256 ∧ yc p < 2 ^ 256)
    (M : String) (y : List P) (c_0 : Nat) (s : List Nat) (Y : P)
    (hy : y ≠ []) (hshort : s.length < y.length) :
    verify_ring_signature xc yc G hashFn M y c_0 s Y = none := by
  have hn : 0 < y.length := List.length_pos.mpr hy
  obtain ⟨bs, hbs⟩ := concat_map_point_isSome xc yc hco y hy
  simp only [verify_ring_signature]
  rw [H2_eq_H2v xc yc G hashFn y bs hbs]
  simp only [Option.some_bind]
  have hlist : List.range y.length = List.range' 0 (y.length - 1 + 1) := by
    rw [List.range_eq_range']
    congr 1
    omega
  rw [hlist]
  exact verifyLoop_short_none xc yc G hashFn hco M y (H2v xc yc G hashFn y) Y c_0 s hy
    hshort (y.length - 1) 0 _ (by omega) (by omega)

/-- verify_ring_signature on an empty key ring raises inside H2 (the
    reduce of an empty list in concat). -/
theorem verify_empty {P : Type} [AddCommMonoid P] (xc yc : P → Nat) (G : P)
    (hashFn : Bytes → Digest) (M : String) (c_0 : Nat) (s : List Nat) (Y : P) :
    verify_ring_signature xc yc G hashFn M ([] : List P) c_0 s Y = none := rfl

/-! Lemmas about the Python-list-semantics translation of the signer. -/

theorem pyIdx_nonneg (n : Nat) (i : Int) (h0 : 0 ≤ i) (hlt : i < (n : Int)) :
    pyIdx n i = some i.toNat := by
  rw [pyIdx, if_pos ⟨h0, hlt⟩]

theorem pyIdx_neg (n : Nat) (i : Int) (hge : -(n : Int) ≤ i) (hlt : i < 0) :
    pyIdx n i = some (i + (n : Int)).toNat := by
  rw [pyIdx, if_neg (by omega), if_pos ⟨hge, hlt⟩]

theorem pyIdx_oob (n : Nat) (i : Int) (h : i < -(n : Int) ∨ (n : Int) ≤ i) :
    pyIdx n i = none := by
  rw [pyIdx, if_neg (by omega), if_neg (by omega)]

theorem pySet_nonneg (l : List Nat) (i : Int) (v : Nat) (h0 : 0 ≤ i)
    (hlt : i < (l.length : Int)) :
    pySet l i v = some (l.set i.toNat v) := by
  rw [pySet, pyIdx_nonneg _ _ h0 hlt, Option.map_some']

theorem pyRange_mem (b : Int) (i : Int) (h : i ∈ pyRange 0 b) : 0 ≤ i ∧ i < b := by
  rw [pyRange] at h
  split at h
  · rw [List.mem_map] at h
    obtain ⟨j, hj, hji⟩ := h
    rw [List.mem_range] at hj
    have hj' : (j : Int) < ((b - 0).toNat : Int) := by exact_mod_cast hj
    omega
  · simp at h

theorem pyRange_empty (a b : Int) (h : ¬ a < b) : pyRange a b = [] := by
  rw [pyRange, if_neg h]

/-- The signing loop with Python list semantics succeeds when every visited
    index is in range, and preserves the lengths of the two arrays. -/
theorem signLoopPy_some {P : Type} [AddCommMonoid P] (xc yc : P → Nat) (G : P)
    (hashFn : Bytes → Digest)
    (hco : ∀ p : P, xc p < 2 ^ 256 ∧ yc p < 2 ^ 256)
    (y : List P) (H Y : P) (M : String) (sr : Int → Nat) (hy : y ≠ []) :
    ∀ (l : List Int) (c s : List Nat),
      (∀ i ∈ l, 0 ≤ i ∧ i < (y.length : Int)) →
      c.length = y.length → s.length = y.length →
      ∃ c' s', signLoopPy xc yc G hashFn y H Y M y.length sr l c s = some (c', s') ∧
        c'.length = y.length ∧ s'.length = y.length := by
  have hn : 0 < y.length := List.length_pos.mpr hy
  intro l
  induction l with
  | nil =>
    intro c s _ hc hs
    exact ⟨c, s, rfl, hc, hs⟩
  | cons i rest ih =>
    intro c s hmem hc hs
    obtain ⟨h0, hlt⟩ := hmem i (List.mem_cons_self i rest)
    simp only [signLoopPy]
    rw [pySet_nonneg s i (sr i) h0 (by rw [hs]; exact hlt)]
    simp only [Option.some_bind]
    rw [pyGetP, pyIdx_nonneg _ _ h0 (by exact_mod_cast hlt)]
    simp only [Option.map_some', Option.some_bind]
    rw [pyGetN, pyIdx_nonneg _ _ h0 (by rw [hc]; exact hlt)]
    simp only [Option.map_some', Option.some_bind]
    rw [H1_ringParams_eq xc yc hashFn hco y hy Y M _ _]
    simp only [Option.some_bind]
    have hmod0 : (0 : Int) ≤ (i + 1) % (y.length : Int) :=
      Int.emod_nonneg _ (by exact_mod_cast hn.ne')
    have hmodlt : (i + 1) % (y.length : Int) < (y.length : Int) :=
      Int.emod_lt_of_pos _ (by exact_mod_cast hn)
    rw [pySet_nonneg c _ _ hmod0 (by rw [hc]; exact hmodlt)]
    simp only [Option.some_bind]
    apply ih
    · intro j hj
      exact hmem j (List.mem_cons_of_mem i hj)
    · rw [List.length_set, hc]
    · rw [List.length_set, hs]

/-- ring_signature with key_idx = -1 (out of the spec range) runs to
    completion and returns a signature: Python's negative indexing writes
    s[-1] at the last slot instead of raising. -/
theorem ring_signature_py_neg_one {P : Type} [AddCommMonoid P] (xc yc : P → Nat)
    (order : Nat) (G : P) (hashFn : Bytes → Digest)
    (hco : ∀ p : P, xc p < 2 ^ 256 ∧ yc p < 2 ^ 256)
    (sk : Nat) (M : String) (y : List P) (u : Nat) (sr : Int → Nat)
    (hy : y ≠ []) :
    ∃ sig, ring_signature_py xc yc order G hashFn sk (-1) M y u sr = some sig := by
  have hn : 0 < y.length := List.length_pos.mpr hy
  obtain ⟨bs, hbs⟩ := concat_map_point_isSome xc yc hco y hy
  set Hp := H2v xc yc G hashFn y with hHp
  simp only [ring_signature_py]
  rw [H2_eq_H2v xc yc G hashFn y bs hbs]
  simp only [Option.some_bind]
  rw [H1_ringParams_eq xc yc hashFn hco y hy _ M _ _]
  simp only [Option.some_bind]
  have hm0 : ((-1 : Int) + 1) % (y.length : Int) = 0 := by
    norm_num
  rw [hm0]
  rw [pySet_nonneg _ _ _ (le_refl 0) (by rw [List.length_replicate]; exact_mod_cast hn)]
  simp only [Option.some_bind]
  have hrange2 : pyRange 0 (-1 : Int) = [] := pyRange_empty _ _ (by norm_num)
  obtain ⟨c', s', hloop, hc', hs'⟩ :=
    signLoopPy_some xc yc G hashFn hco y Hp (sk • Hp) M sr hy
      (pyRange ((-1 : Int) + 1) (y.length : Int) ++ pyRange 0 (-1))
      ((List.replicate y.length 0).set (Int.toNat 0)
        (H1v xc yc hashFn (ringParams y (sk • Hp) M (u • G) (u • Hp))))
      (List.replicate y.length 0)
      (by
        intro j hj
        rw [hrange2, List.append_nil] at hj
        have h01 : ((-1 : Int) + 1) = 0 := by norm_num
        rw [h01] at hj
        exact pyRange_mem _ j hj)
      (by rw [List.length_set, List.length_replicate])
      (by rw [List.length_replicate])
  rw [hloop]
  simp only [Option.some_bind]
  rw [pyGetN, pyIdx_neg _ _ (by omega) (by norm_num)]
  simp only [Option.map_some', Option.some_bind]
  rw [pySet, pyIdx_neg _ _ (by omega) (by norm_num)]
  simp only [Option.map_some', Option.some_bind]
  rw [pyGetN, pyIdx_nonneg _ _ (le_refl 0) (by rw [hc']; exact_mod_cast hn)]
  simp only [Option.map_some', Option.some_bind]
  exact ⟨_, rfl⟩

/-- ring_signature with key_idx = n only fails at STEP 4, after the whole
    loop has run: the read of c[n] raises IndexError. -/
theorem ring_signature_py_oob {P : Type} [AddCommMonoid P] (xc yc : P → Nat)
    (order : Nat) (G : P) (hashFn : Bytes → Digest)
    (hco : ∀ p : P, xc p < 2 ^ 256 ∧ yc p < 2 ^ 256)
    (sk : Nat) (M : String) (y : List P) (u : Nat) (sr : Int → Nat)
    (hy : y ≠ []) :
    ring_signature_py xc yc order G hashFn sk (y.length : Int) M y u sr = none := by
  have hn : 0 < y.length := List.length_pos.mpr hy
  obtain ⟨bs, hbs⟩ := concat_map_point_isSome xc yc hco y hy
  set Hp := H2v xc yc G hashFn y with hHp
  simp only [ring_signature_py]
  rw [H2_eq_H2v xc yc G hashFn y bs hbs]
  simp only [Option.some_bind]
  rw [H1_ringParams_eq xc yc hashFn hco y hy _ M _ _]
  simp only [Option.some_bind]
  have hm0 : (0 : Int) ≤ ((y.length : Int) + 1) % (y.length : Int) :=
    Int.emod_nonneg _ (by exact_mod_cast hn.ne')
  have hmlt : ((y.length : Int) + 1) % (y.length : Int) < (y.length : Int) :=
    Int.emod_lt_of_pos _ (by exact_mod_cast hn)
  rw [pySet_nonneg _ _ _ hm0 (by rw [List.length_replicate]; exact hmlt)]
  simp only [Option.some_bind]
  have hrange1 : pyRange ((y.length : Int) + 1) (y.length : Int) = [] :=
    pyRange_empty _ _ (by omega)
  obtain ⟨c', s', hloop, hc', hs'⟩ :=
    signLoopPy_some xc yc G hashFn hco y Hp (sk • Hp) M sr hy
      (pyRange ((y.length : Int) + 1) (y.length : Int) ++ pyRange 0 (y.length : Int))
      ((List.replicate y.length 0).set
        (Int.toNat (((y.length : Int) + 1) % (y.length : Int)))
        (H1v xc yc hashFn (ringParams y (sk • Hp) M (u • G) (u • Hp))))
      (List.replicate y.length 0)
      (by
        intro j hj
        rw [hrange1, List.nil_append] at hj
        exact pyRange_mem _ j hj)
      (by rw [List.length_set, List.length_replicate])
      (by rw [List.length_replicate])
  rw [hloop]
  simp only [Option.some_bind]
  rw [pyGetN, pyIdx_oob _ _ (by rw [hc']; omega)]
  rfl

/-- Signing an empty key ring raises inside H2, for any key index. -/
theorem ring_signature_py_empty {P : Type} [AddCommMonoid P] (xc yc : P → Nat)
    (order : Nat) (G : P) (hashFn : Bytes → Digest)
    (sk : Nat) (key_idx : Int) (M : String) (u : Nat) (sr : Int → Nat) :
    ring_signature_py xc yc order G hashFn sk key_idx M ([] : List P) u sr = none := rfl

/-! Helper for reading the materialised s list. -/

theorem getD_map_range (n : Nat) (f : Nat → Nat) (i : Nat) (hi : i < n) :
    ((List.range n).map f).getD i 0 = f i := by
  rw [List.getD_eq_getElem _ _ (by simp [hi])]
  rw [List.getElem_map, List.getElem_range]

/-- C1: for every key ring of length n >= 1, every key index below n whose
    public key is generator times the signing key, every message and every
    choice of the random values u and sr drawn while signing, verifying the
    produced signature over the same message and ring returns true.  The
    hypotheses on the group are the contract of the curve provider: both
    coordinates fit 32 bytes, the order is positive and kills the base
    point. -/
theorem ring_signature_roundtrip {P : Type} [AddCommMonoid P] (xc yc : P → Nat)
    (order : Nat) (G : P) (hashFn : Bytes → Digest)
    (hco : ∀ p : P, xc p < 2 ^ 256 ∧ yc p < 2 ^ 256)
    (horder : 0 < order) (hG : order • G = 0)
    (siging_key key_idx : Nat) (M : String) (y : List P) (u : Nat) (sr : Nat → Nat)
    (hk : key_idx < y.length) (hkey : y.getD key_idx 0 = siging_key • G) :
    ∃ c_0 s Y, ring_signature xc yc order G hashFn siging_key key_idx M y u sr =
        some (c_0, s, Y) ∧
      verify_ring_signature xc yc G hashFn M y c_0 s Y = some true := by
  have hy : y ≠ [] := by
    intro h
    rw [h] at hk
    simp at hk
  have hn : 0 < y.length := List.length_pos.mpr hy
  have hHp0 : order • H2v xc yc G hashFn y = 0 := nsmul_order_smul G order _ hG
  refine ⟨_, _, _, ring_signature_char xc yc order G hashFn hco siging_key key_idx
    M y u sr hk, ?_⟩
  have hlen : y.length ≤ ((List.range y.length).map (fun j =>
      if j = key_idx then
        (((u : Int) - (siging_key : Int) *
            (chal xc yc G hashFn y (H2v xc yc G hashFn y)
              (siging_key • H2v xc yc G hashFn y) M u sr key_idx y.length
              (y.length - 1) : Nat))
          % (order : Int)).toNat
      else sr j)).length := by
    simp
  rw [verify_char xc yc G hashFn hco M y _ _ _ hy hlen]
  have hbridge : ∀ i, i ≤ y.length →
      vchal xc yc G hashFn M y (H2v xc yc G hashFn y)
        (siging_key • H2v xc yc G hashFn y)
        (chal xc yc G hashFn y (H2v xc yc G hashFn y)
          (siging_key • H2v xc yc G hashFn y) M u sr key_idx y.length
          (y.length - 1 - key_idx))
        ((List.range y.length).map (fun j =>
          if j = key_idx then
            (((u : Int) - (siging_key : Int) *
                (chal xc yc G hashFn y (H2v xc yc G hashFn y)
                  (siging_key • H2v xc yc G hashFn y) M u sr key_idx y.length
                  (y.length - 1) : Nat))
              % (order : Int)).toNat
          else sr j)) i =
      chal xc yc G hashFn y (H2v xc yc G hashFn y)
        (siging_key • H2v xc yc G hashFn y) M u sr key_idx y.length
        ((i + (y.length - 1) - key_idx) % y.length) := by
    intro i
    induction i with
    | zero =>
      intro _
      rw [vchal]
      have hidx : (0 + (y.length - 1) - key_idx) % y.length =
          y.length - 1 - key_idx := by
        rw [Nat.zero_add]
        exact Nat.mod_eq_of_lt (by omega)
      rw [hidx]
    | succ i ih =>
      intro hi1
      have hi : i < y.length := by omega
      have hv := ih (by omega)
      simp only [vchal]
      rw [hv]
      rw [getD_map_range y.length _ i hi]
      by_cases hik : i = key_idx
      · subst hik
        rw [if_pos rfl]
        have ht : (i + (y.length - 1) - i) % y.length = y.length - 1 := by
          have he : i + (y.length - 1) - i = y.length - 1 := by omega
          rw [he]
          exact Nat.mod_eq_of_lt (by omega)
        rw [ht]
        have hz1 : (((u : Int) - (siging_key : Int) *
              (chal xc yc G hashFn y (H2v xc yc G hashFn y)
                (siging_key • H2v xc yc G hashFn y) M u sr i y.length
                (y.length - 1) : Nat))
            % (order : Int)).toNat • G +
            chal xc yc G hashFn y (H2v xc yc G hashFn y)
              (siging_key • H2v xc yc G hashFn y) M u sr i y.length
              (y.length - 1) • y.getD i 0 = u • G := by
          rw [hkey]
          exact closure_smul G order u siging_key _ horder hG
        have hz2 : (((u : Int) - (siging_key : Int) *
              (chal xc yc G hashFn y (H2v xc yc G hashFn y)
                (siging_key • H2v xc yc G hashFn y) M u sr i y.length
                (y.length - 1) : Nat))
            % (order : Int)).toNat • H2v xc yc G hashFn y +
            chal xc yc G hashFn y (H2v xc yc G hashFn y)
              (siging_key • H2v xc yc G hashFn y) M u sr i y.length
              (y.length - 1) • (siging_key • H2v xc yc G hashFn y) =
            u • H2v xc yc G hashFn y :=
          closure_smul (H2v xc yc G hashFn y) order u siging_key _ horder hHp0
        rw [hz1, hz2]
        have hidx : (i + 1 + (y.length - 1) - i) % y.length = 0 := by
          have he : i + 1 + (y.length - 1) - i = y.length := by omega
          rw [he, Nat.mod_self]
        rw [hidx, chal]
      · rw [if_neg hik]
        have htlt : (i + (y.length - 1) - key_idx) % y.length < y.length :=
          Nat.mod_lt _ hn
        have htne : (i + (y.length - 1) - key_idx) % y.length ≠ y.length - 1 := by
          intro he
          apply hik
          have hthis := (slot_idx_iff key_idx y.length i (y.length - 1) hk hi
            (by omega)).mp he
          rw [hthis]
          have harr : key_idx + 1 + (y.length - 1) = y.length + key_idx := by omega
          rw [harr, Nat.add_mod_left, Nat.mod_eq_of_lt hk]
        have hidx2 : (i + 1 + (y.length - 1) - key_idx) % y.length =
            (i + (y.length - 1) - key_idx) % y.length + 1 := by
          have he : i + 1 + (y.length - 1) - key_idx =
              i + (y.length - 1) - key_idx + 1 := by omega
          rw [he, ← Nat.mod_add_mod, Nat.mod_eq_of_lt (by omega)]
        rw [hidx2]
        simp only [chal]
        have hi2 : (key_idx + 1 + (i + (y.length - 1) - key_idx) % y.length)
            % y.length = i := by
          have he2 : key_idx + 1 + (i + (y.length - 1) - key_idx) =
              i + y.length := by omega
          rw [Nat.add_mod_mod, he2, Nat.add_mod_right, Nat.mod_eq_of_lt hi]
        rw [hi2]
  have hfin := hbridge y.length (Nat.le_refl _)
  have hidxf : (y.length + (y.length - 1) - key_idx) % y.length =
      y.length - 1 - key_idx := by
    have he : y.length + (y.length - 1) - key_idx =
        y.length + (y.length - 1 - key_idx) := by omega
    rw [he, Nat.add_mod_left]
    exact Nat.mod_eq_of_lt (by omega)
  rw [hidxf] at hfin
  rw [hfin]
  simp

/-- The toy instance satisfies the coordinate contract of the curve
    provider. -/
theorem tco : ∀ p : TP, txc p < 2 ^ 256 ∧ tyc p < 2 ^ 256 := fun p =>
  ⟨Nat.lt_of_lt_of_le (ZMod.val_lt p) (by norm_num), by norm_num [tyc]⟩

/-- C1 witness: a ring of two keys over the toy group, signer at index 0,
    nonce 4, blinding draws 2. -/
theorem ring_signature_roundtrip_witness :
    ∃ c_0 s Y, ring_signature txc tyc tOrder tG tHash 3 0 "" [3, 2] 4 (fun _ => 2) =
        some (c_0, s, Y) ∧
      verify_ring_signature txc tyc tG tHash "" [3, 2] c_0 s Y = some true :=
  ring_signature_roundtrip txc tyc tOrder tG tHash
    tco (by decide) (by decide) 3 0 "" [3, 2] 4 (fun _ => 2) (by decide) (by decide)

/-- C2: ring_signature follows exactly the algorithm of the specification,
    whose loop visits the indices cyclically starting after the signer; the
    returned s vector has the length of the key ring. -/
theorem ring_signature_matches_spec {P : Type} [AddCommMonoid P] (xc yc : P → Nat)
    (order : Nat) (G : P) (hashFn : Bytes → Digest)
    (siging_key key_idx : Nat) (M : String) (y : List P) (u : Nat) (sr : Nat → Nat)
    (hk : key_idx < y.length) :
    ring_signature xc yc order G hashFn siging_key key_idx M y u sr =
      ring_signature_spec xc yc order G hashFn siging_key key_idx M y u sr ∧
    ∀ sig, ring_signature xc yc order G hashFn siging_key key_idx M y u sr =
        some sig → sig.2.1.length = y.length := by
  constructor
  · simp only [ring_signature, ring_signature_spec]
    cases hH2 : H2 xc yc G hashFn (y.map Param.point) with
    | none => rfl
    | some H =>
      simp only [Option.some_bind]
      cases hH1 : H1 xc yc hashFn
          (ringParams y (siging_key • H) M (u • G) (u • H)) with
      | none => rfl
      | some seed =>
        simp only [Option.some_bind]
        rw [specLoop_eq_signLoop, visitList_eq key_idx y.length hk]
        simp only [specVisit]
  · intro sig hsig
    simp only [ring_signature, Option.bind_eq_some] at hsig
    obtain ⟨H, hH, hsig⟩ := hsig
    obtain ⟨seed, hseed, hsig⟩ := hsig
    obtain ⟨cs, hcs, hsig⟩ := hsig
    have hts := Option.some.inj hsig
    rw [← hts]
    simp

/-- C2 witness: the source signer and the spec signer agree on a concrete
    two-key ring, and the s vector has length 2. -/
theorem ring_signature_matches_spec_witness :
    (ring_signature txc tyc tOrder tG tHash 3 0 "" [3, 2] 4 (fun _ => 2) =
      ring_signature_spec txc tyc tOrder tG tHash 3 0 "" [3, 2] 4 (fun _ => 2)) ∧
    ∀ sig, ring_signature txc tyc tOrder tG tHash 3 0 "" [3, 2] 4 (fun _ => 2) =
        some sig → sig.2.1.length = ([3, 2] : List TP).length :=
  ring_signature_matches_spec txc tyc tOrder tG tHash 3 0 "" [3, 2] 4 (fun _ => 2)
    (by decide)

/-- C3 counterexample: a call with two s entries against a one-key ring is
    not rejected: verification proceeds on the first entry and returns a
    boolean (here even true), instead of failing with a malformed-signature
    error. -/
theorem verify_length_mismatch_returns_boolean :
    verify_ring_signature txc tyc tG tHash "" [(3 : TP)] 0 [0, 7] 1 = some true ∧
      ([0, 7] : List Nat).length ≠ ([(3 : TP)] : List TP).length := by
  constructor
  · decide
  · decide

/-- C3 amended: verify_ring_signature performs no length check.  On an
    empty ring it raises (inside H2).  When s is shorter than the ring it
    raises an IndexError at position length of s, which is an exception but
    not a dedicated malformed-signature error.  When s is at least as long
    as the ring it silently proceeds on the first n entries and returns a
    boolean. -/
theorem verify_length_behavior {P : Type} [AddCommMonoid P] (xc yc : P → Nat)
    (G : P) (hashFn : Bytes → Digest)
    (hco : ∀ p : P, xc p < 2 ^ 256 ∧ yc p < 2 ^ 256)
    (M : String) (y : List P) (c_0 : Nat) (s : List Nat) (Y : P) :
    (y = [] → verify_ring_signature xc yc G hashFn M y c_0 s Y = none) ∧
    (s.length < y.length → verify_ring_signature xc yc G hashFn M y c_0 s Y = none) ∧
    (1 ≤ y.length → y.length ≤ s.length →
      ∃ b, verify_ring_signature xc yc G hashFn M y c_0 s Y = some b) := by
  refine ⟨?_, ?_, ?_⟩
  · intro h
    subst h
    exact verify_empty xc yc G hashFn M c_0 s Y
  · intro h
    have hy : y ≠ [] := by
      intro he
      rw [he] at h
      simp at h
    exact verify_short xc yc G hashFn hco M y c_0 s Y hy h
  · intro h1 h2
    have hy : y ≠ [] := List.length_pos.mp h1
    exact ⟨_, verify_char xc yc G hashFn hco M y c_0 s Y hy h2⟩

/-- C3 witness: the three behaviors at concrete inputs over the toy
    instance. -/
theorem verify_length_behavior_witness :
    verify_ring_signature txc tyc tG tHash "" ([] : List TP) 0 [0] 1 = none ∧
    verify_ring_signature txc tyc tG tHash "" [(3 : TP), 2] 0 [0] 1 = none ∧
    ∃ b, verify_ring_signature txc tyc tG tHash "" [(3 : TP)] 0 [0, 7] 1 = some b := by
  have hco := tco
  refine ⟨?_, ?_, ?_⟩
  · exact (verify_length_behavior txc tyc tG tHash hco "" [] 0 [0] 1).1 rfl
  · exact (verify_length_behavior txc tyc tG tHash hco "" [3, 2] 0 [0] 1).2.1 (by decide)
  · exact (verify_length_behavior txc tyc tG tHash hco "" [3] 0 [0, 7] 1).2.2
      (by decide) (by decide)

/-- C4: H1 is the big-endian value of the digest of the hash of the
    encoding, with no reduction mod the group order: for the all-255 digest
    the value is 2 pow 256 - 1, which is at least the SECP256k1 order. -/
theorem H1_bigendian_unreduced :
    (∀ {P : Type} (xc yc : P → Nat) (hashFn : Bytes → Digest)
      (msg : List (Param P)) (bs : Bytes),
      concat xc yc msg = some bs →
        H1 xc yc hashFn msg = some (bytesBE (hashFn bs))) ∧
    (∃ v, H1 txc tyc ffHash ([Param.int 0] : List (Param TP)) = some v ∧
      secp256k1_order ≤ v) := by
  constructor
  · intro P xc yc hashFn msg bs h
    rw [H1, h, Option.map_some', int_of_hex_hexdigest]
  · refine ⟨2 ^ 256 - 1, by decide, by decide⟩

/-- C4 witness: the big-endian reading applied at a concrete encoding. -/
theorem H1_bigendian_unreduced_witness :
    H1 txc tyc tHash ([Param.int 5] : List (Param TP)) =
      some (bytesBE (tHash (List.replicate 31 0 ++ [5]))) :=
  H1_bigendian_unreduced.1 txc tyc tHash [Param.int 5]
    (List.replicate 31 0 ++ [5]) (by decide)

/-- C5 counterexample: a sequence whose only element is the empty sequence
    does not encode to the empty byte string: concat raises (the reduce of
    an empty list), refuting the claim for the empty sequence. -/
theorem concat_empty_sequence_fails :
    concat txc tyc [Param.list ([] : List (Param TP))] = none := rfl

/-- C5 amended: whenever the encoder succeeds, an integer yields its
    32-byte big-endian representation, a point its two 32-byte coordinates
    x then y, a string its UTF-8 bytes, and a sequence the concatenation of
    its elements' encodings in order with no separator or length prefix —
    but an empty sequence never encodes (it raises instead of producing the
    empty byte string). -/
theorem concat_characterization {P : Type} (xc yc : P → Nat) :
    (∀ (p : Param P) (bs : Bytes), concatElem xc yc p = some bs →
      (match p with
       | Param.int k => bs.length = 32 ∧ natBE bs = k ∧ ∀ b ∈ bs, b < 256
       | Param.str s => bs = utf8Bytes s
       | Param.point pt => ∃ xb yb, bs = xb ++ yb ∧ xb.length = 32 ∧
           yb.length = 32 ∧ natBE xb = xc pt ∧ natBE yb = yc pt
       | Param.list ps => ps ≠ [] ∧ ∃ bss, elemBytes xc yc ps = some bss ∧
           bs = bss.flatten)) ∧
    concatElem xc yc (Param.list ([] : List (Param P))) = none := by
  constructor
  · intro p bs h
    cases p with
    | int k => exact natBE_to_bytes32 k bs h
    | str s => exact (Option.some.inj h).symm
    | point pt =>
      simp only [concatElem] at h
      rw [Option.bind_eq_some] at h
      obtain ⟨bx, hbx, h2⟩ := h
      rw [Option.map_eq_some'] at h2
      obtain ⟨yb, hyb, hbs⟩ := h2
      obtain ⟨hlx, hvx, hbx256⟩ := natBE_to_bytes32 _ _ hbx
      obtain ⟨hly, hvy, hby256⟩ := natBE_to_bytes32 _ _ hyb
      exact ⟨bx, yb, hbs.symm, hlx, hly, hvx, hvy⟩
    | list ps =>
      simp only [concatElem] at h
      rw [Option.bind_eq_some] at h
      obtain ⟨bss, hbss, hred⟩ := h
      cases bss with
      | nil =>
        simp only [reduce_cat] at hred
        exact Option.noConfusion hred
      | cons b rest =>
        rw [reduce_cat_cons] at hred
        have hbs := Option.some.inj hred
        constructor
        · intro hps
          subst hps
          simp only [elemBytes] at hbss
          exact List.noConfusion (Option.some.inj hbss)
        · refine ⟨b :: rest, hbss, ?_⟩
          rw [List.flatten_cons]
          exact hbs.symm
  · rfl

/-- C5 witness: the characterisation applied to a concrete integer. -/
theorem concat_characterization_witness :
    (List.replicate 31 0 ++ [5]).length = 32 ∧
      natBE (List.replicate 31 0 ++ [5]) = 5 ∧
      ∀ b ∈ List.replicate 31 (0 : Nat) ++ [5], b < 256 :=
  (concat_characterization txc tyc).1 (Param.int 5)
    (List.replicate 31 0 ++ [5]) (by decide)

/-- C6: the linkage tag of every produced signature is H2 of the ring
    times the signing key, a function of the ring and key only; two
    signatures over the same ring and key share it whatever the messages
    and random draws. -/
theorem linkage_tag_deterministic {P : Type} [AddCommMonoid P] (xc yc : P → Nat)
    (order : Nat) (G : P) (hashFn : Bytes → Digest)
    (hco : ∀ p : P, xc p < 2 ^ 256 ∧ yc p < 2 ^ 256)
    (siging_key key_idx : Nat) (M : String) (y : List P) (u : Nat) (sr : Nat → Nat)
    (hk : key_idx < y.length) :
    (∀ c_0 s Y, ring_signature xc yc order G hashFn siging_key key_idx M y u sr =
        some (c_0, s, Y) → Y = siging_key • H2v xc yc G hashFn y) ∧
    (∀ (M' : String) (u' : Nat) (sr' : Nat → Nat),
      (ring_signature xc yc order G hashFn siging_key key_idx M y u sr).map
          (fun sig => sig.2.2) =
        (ring_signature xc yc order G hashFn siging_key key_idx M' y u' sr').map
          (fun sig => sig.2.2)) := by
  constructor
  · intro c_0 s Y hsig
    rw [ring_signature_char xc yc order G hashFn hco siging_key key_idx M y u sr hk]
      at hsig
    have h := Option.some.inj hsig
    exact (congrArg (fun t : Nat × List Nat × P => t.2.2) h).symm
  · intro M' u' sr'
    rw [ring_signature_char xc yc order G hashFn hco siging_key key_idx M y u sr hk,
      ring_signature_char xc yc order G hashFn hco siging_key key_idx M' y u' sr' hk]
    simp only [Option.map_some']

/-- C6 witness: the linkage tag over the toy instance, for two different
    messages and draws. -/
theorem linkage_tag_deterministic_witness :
    (∀ c_0 s Y, ring_signature txc tyc tOrder tG tHash 3 0 "" [3, 2] 4 (fun _ => 2) =
        some (c_0, s, Y) → Y = 3 • H2v txc tyc tG tHash [3, 2]) ∧
    (∀ (M' : String) (u' : Nat) (sr' : Nat → Nat),
      (ring_signature txc tyc tOrder tG tHash 3 0 "" [3, 2] 4 (fun _ => 2)).map
          (fun sig => sig.2.2) =
        (ring_signature txc tyc tOrder tG tHash 3 0 M' [3, 2] u' sr').map
          (fun sig => sig.2.2)) :=
  linkage_tag_deterministic txc tyc tOrder tG tHash tco
    3 0 "" [3, 2] 4 (fun _ => 2) (by decide)

/-- C7: the encoder is not injective: a flat two-element list and a
    differently nested list encode to the same bytes, because no length or
    type framing is emitted. -/
theorem concat_not_injective :
    concat txc tyc [Param.list [Param.int 5], Param.int 7] =
      concat txc tyc [Param.int 5, Param.int 7] ∧
    ([Param.list [Param.int 5], Param.int 7] : List (Param TP)) ≠
      [Param.int 5, Param.int 7] := by
  constructor
  · decide
  · intro h
    exact Param.noConfusion (List.cons.inj h).1

/-- C8: for well-formed inputs verification never raises: it returns the
    boolean of the final comparison at index n - 1 between c_0 and the last
    recomputed challenge, so the fallthrough return false after the loop is
    never the result. -/
theorem verify_never_throws_final_comparison {P : Type} [AddCommMonoid P]
    (xc yc : P → Nat) (G : P) (hashFn : Bytes → Digest)
    (hco : ∀ p : P, xc p < 2 ^ 256 ∧ yc p < 2 ^ 256)
    (M : String) (y : List P) (c_0 : Nat) (s : List Nat) (Y : P)
    (hn1 : 1 ≤ y.length) (hlen : s.length = y.length) :
    verify_ring_signature xc yc G hashFn M y c_0 s Y =
      some (decide (c_0 = vchal xc yc G hashFn M y (H2v xc yc G hashFn y) Y c_0 s
        y.length)) :=
  verify_char xc yc G hashFn hco M y c_0 s Y (List.length_pos.mp hn1) hlen.ge

/-- C8 witness: the closed form at a concrete well-formed input. -/
theorem verify_never_throws_witness :
    verify_ring_signature txc tyc tG tHash "" [(3 : TP), 2] 0 [1, 2] 1 =
      some (decide (0 = vchal txc tyc tG tHash "" [(3 : TP), 2]
        (H2v txc tyc tG tHash [3, 2]) 1 0 [1, 2] 2)) :=
  verify_never_throws_final_comparison txc tyc tG tHash tco
    "" [3, 2] 0 [1, 2] 1 (by decide) (by decide)

/-- C9 counterexample: signing with key_idx = -1, outside the range 0..n-1,
    runs to completion and returns a signature instead of failing: Python's
    negative indexing makes every access legal. -/
theorem sign_neg_index_returns_signature :
    (ring_signature_py txc tyc tOrder tG tHash 3 (-1) "" [3, 2] 4
      (fun _ => 2)).isSome = true := by
  decide

/-- C9 amended: signing with an empty ring raises (a TypeError inside the
    hash, not a descriptive validation error); key_idx = n raises an
    IndexError but only at STEP 4 after the whole loop has run, so it does
    not fail fast; and a negative key_idx in range -n..-1 does not fail at
    all — it returns a signature through Python's negative indexing. -/
theorem sign_malformed_input_behavior {P : Type} [AddCommMonoid P] (xc yc : P → Nat)
    (order : Nat) (G : P) (hashFn : Bytes → Digest)
    (hco : ∀ p : P, xc p < 2 ^ 256 ∧ yc p < 2 ^ 256)
    (siging_key : Nat) (M : String) (y : List P) (u : Nat) (sr : Int → Nat)
    (hy : y ≠ []) :
    (∃ sig, ring_signature_py xc yc order G hashFn siging_key (-1) M y u sr =
      some sig) ∧
    ring_signature_py xc yc order G hashFn siging_key (y.length : Int) M y u sr =
      none ∧
    ∀ (key_idx : Int) (M' : String) (u' : Nat) (sr' : Int → Nat),
      ring_signature_py xc yc order G hashFn siging_key key_idx M'
        ([] : List P) u' sr' = none :=
  ⟨ring_signature_py_neg_one xc yc order G hashFn hco siging_key M y u sr hy,
   ring_signature_py_oob xc yc order G hashFn hco siging_key M y u sr hy,
   fun _ _ _ _ => rfl⟩

/-- C9 witness: the three behaviors at concrete inputs. -/
theorem sign_malformed_input_behavior_witness :
    (∃ sig, ring_signature_py txc tyc tOrder tG tHash 3 (-1) "" [3, 2] 4
      (fun _ => 2) = some sig) ∧
    ring_signature_py txc tyc tOrder tG tHash 3 (([3, 2] : List TP).length : Int)
      "" [3, 2] 4 (fun _ => 2) = none ∧
    ∀ (key_idx : Int) (M' : String) (u' : Nat) (sr' : Int → Nat),
      ring_signature_py txc tyc tOrder tG tHash 3 key_idx M' ([] : List TP) u' sr' =
        none :=
  sign_malformed_input_behavior txc tyc tOrder tG tHash tco
    3 "" [3, 2] 4 (fun _ => 2) (by decide)

/-- C10: the encoder is undefined on the empty sequence: concat of the empty
    list raises instead of returning the empty byte string, so H1 and H2
    (and hence hashing an empty key ring) raise as well. -/
theorem concat_empty_fails {P : Type} [AddCommMonoid P] (xc yc : P → Nat)
    (G : P) (hashFn : Bytes → Digest) :
    concat xc yc ([] : List (Param P)) = none ∧
    H1 xc yc hashFn ([] : List (Param P)) = none ∧
    H2 xc yc G hashFn ([] : List (Param P)) = none ∧
    concatElem xc yc (Param.list ([] : List (Param P))) = none :=
  ⟨rfl, rfl, rfl, rfl⟩

end RingSig
